import Mathlib

/-!
Verification of the wait-queue admission/resolution protocol of the
threadsafe-simpy resource primitives (`simpy/resources.py` and
`simpy/resources/store.py`).

The embedding is shallow: each Python class becomes a Lean structure, each
method a Lean function threading the state explicitly.  Process identities
and event identities are natural numbers; the scheduler's "current target of
a process" relation (read by the resolution loops for stale-entry detection)
is passed in as a function `Targets`.  Numeric levels and amounts are
rationals, and capacities that may be `float('inf')` are `WithTop ℚ`
(resp. `WithTop ℕ` for item counts).  Events succeeded by an operation are
returned as an ordered log of event identifiers.

The FIFO queue discipline lives in `simpy/queues.py`, which is not part of
the sources; following the documented contract it is modelled as a plain
list with push-at-tail, pop-at-head, peek-at-head, and remove-first-equal.
-/

set_option autoImplicit false

/-- The scheduler's view: for each process identifier, the event identifier
the process is currently targeting (if suspended on one).  Read by the
resolution loops via `proc.target is not event`. -/
def Targets : Type := Nat → Option Nat

/-! ### Resource (`simpy/resources.py`, class `Resource`) -/

/-- State of a `Resource`: its capacity (no construction-time validation is
performed, so any integer is representable), the `users` list of holder
process ids, and the wait queue of `(event, proc)` pairs. -/
structure ResourceState where
  capacity : Int
  users : List Nat
  queue : List (Nat × Nat)
  deriving Repr, DecidableEq

/-- Embedding of `Resource.__init__`: stores the capacity unchecked and
starts with empty `users` and wait queue. -/
def Resource.init (cap : Int) : ResourceState :=
  ⟨cap, [], []⟩

/-- Embedding of `Resource.request`: if `len(users) < capacity` the active
process is appended to `users` and the fresh event succeeds immediately
(the returned log holds the succeeded event ids, the Bool tells whether the
returned event is already succeeded). Otherwise the `(event, proc)` entry is
pushed onto the wait queue and the event stays pending. -/
def Resource.request (proc event : Nat) (s : ResourceState) :
    ResourceState × List Nat × Bool :=
  if (s.users.length : Int) < s.capacity then
    ({ s with users := s.users ++ [proc] }, [event], true)
  else
    ({ s with queue := s.queue ++ [(event, proc)] }, [], false)

/-- Python equality between a wait-queue entry, which is the 2-tuple
`(event, proc)` pushed by `Resource.request`, and a bare Process object:
a tuple never compares equal to a Process instance, so the test is always
false.  `Resource.release` performs `self.queue.remove(proc)` with the bare
process, hence this comparison is the one the removal runs. -/
def entryEqProc (_entry : Nat × Nat) (_proc : Nat) : Bool := false

/-- Modelled from the spec: `FIFO.remove` of the queue discipline
(`simpy/queues.py`, not under src/) removes the first queue entry equal to
its argument and fails (raises `ValueError`, i.e. NotFound) when no entry
matches.  Here the argument is the bare process passed by
`Resource.release`, compared against entries with `entryEqProc`. -/
def fifoRemoveProc (q : List (Nat × Nat)) (p : Nat) : Option (List (Nat × Nat)) :=
  match q with
  | [] => none
  | e :: rest =>
    if entryEqProc e p then
      some rest
    else
      match fifoRemoveProc rest p with
      | some q2 => some (e :: q2)
      | none => none

/-- Embedding of the tail of `Resource.release` (lines 109-113): if the wait
queue is non-empty, pop its head entry, append that entry's process to
`users` and succeed its event. -/
def Resource.resumeNext (s : ResourceState) : ResourceState × List Nat :=
  match s.queue with
  | [] => (s, [])
  | (ev, nextUser) :: rest =>
    ({ s with users := s.users ++ [nextUser], queue := rest }, [ev])

/-- The error raised by `Resource.release` when the calling process is found
neither among the holders nor (by the tuple-vs-process comparison) in the
wait queue. -/
inductive RErr where
  | invalidRelease
  deriving Repr, DecidableEq

/-- Embedding of `Resource.release`: remove the first occurrence of the
calling process from `users`; on `ValueError`, attempt
`self.queue.remove(proc)` (which compares the bare process against
`(event, proc)` tuples); if both fail, raise.  After a successful removal,
resume the next queued user. -/
def Resource.release (proc : Nat) (s : ResourceState) :
    Except RErr (ResourceState × List Nat) :=
  if proc ∈ s.users then
    .ok (Resource.resumeNext { s with users := s.users.erase proc })
  else
    match fifoRemoveProc s.queue proc with
    | some q2 => .ok (Resource.resumeNext { s with queue := q2 })
    | none => .error .invalidRelease

/-- An operation on one `Resource` by some process. -/
inductive ROp where
  | request (proc : Nat)
  | release (proc : Nat)
  deriving Repr, DecidableEq

/-- A running `Resource` together with the supply of fresh event ids
(`env.event()` numbers events by creation order) and the ordered log of all
event ids the primitive has succeeded so far. -/
structure RTrace where
  state : ResourceState
  nextId : Nat
  log : List Nat
  deriving Repr, DecidableEq

/-- One operation applied to a running `Resource`.  A `release` that raises
leaves the state unchanged (both failed removals mutate nothing). -/
def rStep (t : RTrace) (op : ROp) : RTrace :=
  match op with
  | .request p =>
    let r := Resource.request p t.nextId t.state
    ⟨r.1, t.nextId + 1, t.log ++ r.2.1⟩
  | .release p =>
    match Resource.release p t.state with
    | .ok (s2, log2) => ⟨s2, t.nextId, t.log ++ log2⟩
    | .error _ => t

/-- Run a sequence of operations on a freshly constructed `Resource`. -/
def rRun (cap : Int) (ops : List ROp) : RTrace :=
  ops.foldl rStep ⟨Resource.init cap, 0, []⟩

theorem fifoRemoveProc_eq_none (q : List (Nat × Nat)) (p : Nat) :
    fifoRemoveProc q p = none := by
  induction q with
  | nil => rfl
  | cons e rest ih => simp [fifoRemoveProc, entryEqProc, ih]

theorem request_users_le (proc event : Nat) (s : ResourceState)
    (h : (s.users.length : Int) ≤ s.capacity) :
    ((Resource.request proc event s).1.users.length : Int) ≤ s.capacity ∧
    (Resource.request proc event s).1.capacity = s.capacity := by
  unfold Resource.request
  split
  · rename_i hlt
    refine ⟨?_, rfl⟩
    simp only [List.length_append, List.length_cons, List.length_nil]
    push_cast
    omega
  · exact ⟨h, rfl⟩

theorem resumeNext_users_le (s : ResourceState) :
    ((Resource.resumeNext s).1.users.length : Int) ≤ (s.users.length : Int) + 1 ∧
    (Resource.resumeNext s).1.capacity = s.capacity := by
  rcases hq : s.queue with _ | ⟨⟨ev, nextUser⟩, rest⟩ <;>
    simp [Resource.resumeNext, hq]

theorem release_users_le (proc : Nat) (s s2 : ResourceState) (log : List Nat)
    (hrel : Resource.release proc s = .ok (s2, log))
    (h : (s.users.length : Int) ≤ s.capacity) :
    (s2.users.length : Int) ≤ s.capacity ∧ s2.capacity = s.capacity := by
  unfold Resource.release at hrel
  by_cases hp : proc ∈ s.users
  · rw [if_pos hp] at hrel
    simp only [Except.ok.injEq] at hrel
    have hlen : (s.users.erase proc).length = s.users.length - 1 :=
      List.length_erase_of_mem hp
    have hpos : 0 < s.users.length :=
      List.length_pos.mpr (List.ne_nil_of_mem hp)
    have h2 := resumeNext_users_le { s with users := s.users.erase proc }
    rw [hrel] at h2
    simp only at h2
    refine ⟨?_, h2.2⟩
    have := h2.1
    rw [hlen] at this
    have hcast : ((s.users.length - 1 : Nat) : Int) = (s.users.length : Int) - 1 := by
      omega
    rw [hcast] at this
    omega
  · rw [if_neg hp, fifoRemoveProc_eq_none] at hrel
    exact absurd hrel (by simp)

theorem rStep_users_le (t : RTrace) (op : ROp)
    (h : (t.state.users.length : Int) ≤ t.state.capacity) :
    ((rStep t op).state.users.length : Int) ≤ t.state.capacity ∧
    (rStep t op).state.capacity = t.state.capacity := by
  cases op with
  | request p =>
    exact request_users_le p t.nextId t.state h
  | release p =>
    show ((match Resource.release p t.state with
      | .ok (s2, log2) => (⟨s2, t.nextId, t.log ++ log2⟩ : RTrace)
      | .error _ => t).state.users.length : Int) ≤ t.state.capacity ∧
      (match Resource.release p t.state with
      | .ok (s2, log2) => (⟨s2, t.nextId, t.log ++ log2⟩ : RTrace)
      | .error _ => t).state.capacity = t.state.capacity
    rcases hrel : Resource.release p t.state with e | ⟨s2, log2⟩
    · exact ⟨h, rfl⟩
    · exact release_users_le p t.state s2 log2 hrel h

theorem rRun_invariant (cap : Int) (hcap : 0 ≤ cap) (ops : List ROp) :
    ((rRun cap ops).state.users.length : Int) ≤ (rRun cap ops).state.capacity ∧
    (rRun cap ops).state.capacity = cap := by
  unfold rRun
  induction ops using List.reverseRecOn with
  | nil =>
    exact ⟨by simpa [Resource.init] using hcap, rfl⟩
  | append_singleton ops op ih =>
    rw [List.foldl_append, List.foldl_cons, List.foldl_nil]
    obtain ⟨h1, h2⟩ := ih
    have h3 := rStep_users_le (List.foldl rStep ⟨Resource.init cap, 0, []⟩ ops) op h1
    rw [h2] at h3
    rw [h3.2]
    exact ⟨h3.1, rfl⟩

/-- C1, amended: for any capacity ≥ 0 and any sequence of request/release
calls by any processes, the holder list `users` never grows beyond the
capacity.  (The duplicate-freeness half of the claim is false: `request`
appends the active process unconditionally, so one process can hold several
slots at once — see the counterexample.) -/
theorem C1_resource_holders_le_capacity (cap : Int) (ops : List ROp)
    (hcap : 0 ≤ cap) :
    ((rRun cap ops).state.users.length : Int) ≤ cap := by
  obtain ⟨h1, h2⟩ := rRun_invariant cap hcap ops
  rw [h2] at h1
  exact h1

/-- Witness for C1: a concrete run (two processes request, one releases)
stays within a capacity of 2. -/
theorem C1_resource_holders_le_capacity_witness :
    (0 : Int) ≤ 2 ∧
    ((rRun 2 [ROp.request 1, ROp.request 4, ROp.release 1]).state.users.length : Int) ≤ 2 :=
  ⟨by decide, C1_resource_holders_le_capacity 2 [ROp.request 1, ROp.request 4, ROp.release 1] (by decide)⟩

/-- Counterexample to C1 as stated: with capacity 2, process 7 calling
`request()` twice ends up in the holder list twice — `request` never checks
whether the active process already holds a slot, so "no process appears in
the holder set more than once" is false. -/
theorem C1_counterexample :
    (rRun 2 [ROp.request 7, ROp.request 7]).state.users = [7, 7] ∧
    ¬ (rRun 2 [ROp.request 7, ROp.request 7]).state.users.Nodup := by
  constructor
  · decide
  · decide

/-- C5: `Resource.release` called by a process that holds no slot but does
have a queued wait entry.  The source runs `self.queue.remove(proc)` with
the bare process while the queue holds `(event, proc)` tuples, so the
removal never finds the entry and the release raises the InvalidRelease
`ValueError` — contradicting both the claim and the comment in the source
("Check if the process is still waiting and remove it").  Concretely:
capacity 1, process 1 holds the slot, process 2 has the queued entry
`(0, 2)`; process 2's release fails. -/
theorem C5_release_of_waiting_process_raises :
    Resource.release 2 ⟨1, [1], [(0, 2)]⟩ = .error .invalidRelease := by
  rfl

/-! ### Container (`simpy/resources.py`, class `Container`) -/

/-- A wait entry of a `Container` queue: the tuple
`(new_event, active_process, amount)` pushed by `put`/`get`. -/
structure CEntry where
  event : Nat
  proc : Nat
  amount : ℚ
  deriving DecidableEq

/-- State of a `Container`.  The capacity may be `float('inf')` (the
default), modelled as `⊤ : WithTop ℚ`; the level and all amounts are
rationals. -/
structure ContainerState where
  capacity : WithTop ℚ
  level : ℚ
  put_q : List CEntry
  get_q : List CEntry
  deriving DecidableEq

/-- Errors raised by `Container.__init__`: `capacity <= 0` and `init < 0`
are rejected, in that order. -/
inductive CInitErr where
  | invalidCapacity
  | invalidInitialLevel
  deriving Repr, DecidableEq

/-- Embedding of `Container.__init__` (lines 140-157): validates
`capacity <= 0` and `init < 0`.  There is no check that `init` exceeds
`capacity`. -/
def Container.init (cap : WithTop ℚ) (ini : ℚ) : Except CInitErr ContainerState :=
  if cap ≤ 0 then .error .invalidCapacity
  else if ini < 0 then .error .invalidInitialLevel
  else .ok ⟨cap, ini, [], []⟩

/-- Result of the get-queue resolution loop run by `Container.put`. -/
structure CGetDrain where
  level : ℚ
  get_q : List CEntry
  log : List Nat
  deriving DecidableEq

/-- Embedding of the resolution loop of `Container.put` (lines 185-198):
peek the head of `get_q`; a stale entry (its process no longer targets its
event) is popped and discarded; a satisfiable entry (`level >= amount`,
the entry's own amount) is popped, the level is decreased by the entry's
amount and its event succeeds; otherwise the loop stops. -/
def drainGet (tg : Targets) (lvl : ℚ) : List CEntry → CGetDrain
  | [] => ⟨lvl, [], []⟩
  | e :: rest =>
    if tg e.proc ≠ some e.event then
      drainGet tg lvl rest
    else if e.amount ≤ lvl then
      let r := drainGet tg (lvl - e.amount) rest
      { r with log := e.event :: r.log }
    else
      ⟨lvl, e :: rest, []⟩

/-- Result of the put-queue resolution loop run by `Container.get`;
`emptyQueueRaised` records that `self.get_q.pop()` was attempted on an
empty queue (the EmptyQueue error of the queue discipline). -/
structure CPutDrain where
  level : ℚ
  put_q : List CEntry
  get_q : List CEntry
  log : List Nat
  emptyQueueRaised : Bool
  deriving DecidableEq

/-- Embedding of the resolution loop of `Container.get` (lines 225-239),
faithful to the source including its two slips: on a stale head the source
pops from `get_q` (`self.get_q.pop()`) instead of `put_q`, raising
EmptyQueue once `get_q` is exhausted while the stale head stays put; and
the grant test and level update use the CALLER's `amount` (the entry's own
amount is unpacked into the unused name `amout`). -/
def drainPut (tg : Targets) (cap : WithTop ℚ) (callerAmount : ℚ) (lvl : ℚ)
    (pq gq : List CEntry) : CPutDrain :=
  match pq with
  | [] => ⟨lvl, [], gq, [], false⟩
  | e :: rest =>
    if tg e.proc ≠ some e.event then
      match gq with
      | [] => ⟨lvl, e :: rest, [], [], true⟩
      | _ :: gr => drainPut tg cap callerAmount lvl (e :: rest) gr
    else if ((lvl + callerAmount : ℚ) : WithTop ℚ) ≤ cap then
      let r := drainPut tg cap callerAmount (lvl + callerAmount) rest gq
      { r with log := e.event :: r.log }
    else
      ⟨lvl, e :: rest, gq, [], false⟩
termination_by pq.length + gq.length

/-- Errors a `Container` operation can raise: the InvalidAmount
`ValueError` for `amount <= 0`, and the EmptyQueue error surfacing from the
resolution loop of `get`. -/
inductive CErr where
  | invalidAmount
  | emptyQueue
  deriving Repr, DecidableEq

/-- Whether the event returned by an operation is already succeeded
(immediate grant) or pending (the caller was enqueued). -/
inductive Outcome where
  | immediate
  | queued
  deriving Repr, DecidableEq

/-- Result of one `Container` operation: the state afterwards, the ordered
log of event ids succeeded during the call, and the outcome. -/
structure COpResult where
  state : ContainerState
  log : List Nat
  result : Except CErr Outcome

/-- Embedding of `Container.put` (lines 167-206). -/
def Container.put (tg : Targets) (proc event : Nat) (amount : ℚ)
    (s : ContainerState) : COpResult :=
  if amount ≤ 0 then ⟨s, [], .error .invalidAmount⟩
  else
    let new_level := s.level + amount
    if (new_level : WithTop ℚ) ≤ s.capacity then
      let r := drainGet tg new_level s.get_q
      ⟨{ s with level := r.level, get_q := r.get_q }, r.log ++ [event], .ok .immediate⟩
    else
      ⟨{ s with put_q := s.put_q ++ [⟨event, proc, amount⟩] }, [], .ok .queued⟩

/-- Embedding of `Container.get` (lines 208-247).  When the resolution loop
raises EmptyQueue, the exception propagates: the returned event is never
succeeded, but the mutations made up to that point remain. -/
def Container.get (tg : Targets) (proc event : Nat) (amount : ℚ)
    (s : ContainerState) : COpResult :=
  if amount ≤ 0 then ⟨s, [], .error .invalidAmount⟩
  else if amount ≤ s.level then
    let r := drainPut tg s.capacity amount (s.level - amount) s.put_q s.get_q
    let s2 := { s with level := r.level, put_q := r.put_q, get_q := r.get_q }
    if r.emptyQueueRaised then
      ⟨s2, r.log, .error .emptyQueue⟩
    else
      ⟨s2, r.log ++ [event], .ok .immediate⟩
  else
    ⟨{ s with get_q := s.get_q ++ [⟨event, proc, amount⟩] }, [], .ok .queued⟩

/-- The targets map used for the C2 evidence: process 1 targets event 0
(its queued entry is fresh, not stale). -/
def c2Targets : Targets := fun p => if p = 1 then some 0 else none

/-- C2 (code bug): `Container.get`'s resolution loop tests and applies the
caller's `amount` instead of the queued entry's own amount.  Concretely:
capacity 10, level 10, put-wait-queue holding the fresh entry
`(event 0, proc 1, amount 7)`; process 2 calls `get(2)`.  The entry's own
condition `8 + 7 <= 10` fails, so by the claim the loop must stop with the
entry still queued and level 8; the source instead computes
`new_level = 8 + 2 <= 10`, pops the entry, sets the level to 10 and
succeeds event 0. -/
theorem C2_get_drain_wrong_amount :
    let s : ContainerState := ⟨((10:ℚ) : WithTop ℚ), 10, [⟨0, 1, 7⟩], []⟩
    let r := Container.get c2Targets 2 5 2 s
    r.state.level = 10 ∧ r.state.put_q = [] ∧ r.log = [0, 5] ∧
    r.result = .ok .immediate ∧ ¬ ((8 : ℚ) + 7 ≤ 10) := by
  simp [Container.get, drainPut, c2Targets]
  norm_num

/-- The targets map used for the C7 evidence: no process targets any
event, so every queued entry is stale. -/
def c7Targets : Targets := fun _ => none

/-- C7 (code bug): when `Container.get`'s resolution loop meets a stale
head of the put-wait-queue it executes `self.get_q.pop()` — popping the
GET queue instead of the put queue.  Concretely: capacity 10, level 5,
put-wait-queue holding the stale entry `(event 0, proc 1, amount 3)`,
empty get-wait-queue; process 2 calls `get(5)`.  By the claim the stale
entry is dropped silently; the source instead pops the empty `get_q`,
raising the EmptyQueue error, and the stale entry stays queued. -/
theorem C7_stale_entry_raises_emptyqueue :
    let s : ContainerState := ⟨((10:ℚ) : WithTop ℚ), 5, [⟨0, 1, 3⟩], []⟩
    let r := Container.get c7Targets 2 9 5 s
    r.result = .error .emptyQueue ∧ r.state.put_q = [⟨0, 1, 3⟩] ∧
    r.log = [] ∧ r.state.level = 0 := by
  simp [Container.get, drainPut, c7Targets]
  norm_num

/-- C10: on a `Container` with the default unbounded capacity
(`float('inf')`, modelled `⊤`), every `put` with a positive amount takes
the immediate branch: the returned event is already succeeded and nothing
is ever pushed onto the put-wait-queue, whatever the level and the two
queues hold. -/
theorem C10_unbounded_put_always_immediate (tg : Targets) (proc event : Nat)
    (amount : ℚ) (s : ContainerState) (hcap : s.capacity = ⊤)
    (hpos : 0 < amount) :
    (Container.put tg proc event amount s).result = .ok .immediate ∧
    (Container.put tg proc event amount s).state.put_q = s.put_q ∧
    event ∈ (Container.put tg proc event amount s).log := by
  unfold Container.put
  rw [if_neg (not_le.mpr hpos), hcap]
  simp [le_top]

/-- Witness for C10: a concrete unbounded container with a busy state. -/
theorem C10_unbounded_put_always_immediate_witness :
    (⟨⊤, 3, [⟨0, 1, 2⟩], [⟨2, 3, 5⟩]⟩ : ContainerState).capacity = ⊤ ∧
    (0 : ℚ) < 1 ∧
    ((Container.put c7Targets 4 6 1 ⟨⊤, 3, [⟨0, 1, 2⟩], [⟨2, 3, 5⟩]⟩).result = .ok .immediate ∧
     (Container.put c7Targets 4 6 1 ⟨⊤, 3, [⟨0, 1, 2⟩], [⟨2, 3, 5⟩]⟩).state.put_q = [⟨0, 1, 2⟩] ∧
     6 ∈ (Container.put c7Targets 4 6 1 ⟨⊤, 3, [⟨0, 1, 2⟩], [⟨2, 3, 5⟩]⟩).log) :=
  ⟨rfl, by norm_num,
   C10_unbounded_put_always_immediate c7Targets 4 6 1 _ rfl (by norm_num)⟩

theorem drainGet_bounds (tg : Targets) (lvl : ℚ) (gq : List CEntry)
    (h0 : 0 ≤ lvl) (hq : ∀ x ∈ gq, 0 < x.amount) :
    0 ≤ (drainGet tg lvl gq).level ∧ (drainGet tg lvl gq).level ≤ lvl ∧
    ∀ e ∈ (drainGet tg lvl gq).get_q, e ∈ gq := by
  induction gq generalizing lvl with
  | nil => simpa [drainGet] using h0
  | cons e rest ih =>
    have hrest : ∀ x ∈ rest, 0 < x.amount :=
      fun x hx => hq x (List.mem_cons_of_mem _ hx)
    by_cases hst : tg e.proc ≠ some e.event
    · have h := ih lvl h0 hrest
      simp only [drainGet, if_pos hst]
      exact ⟨h.1, h.2.1, fun x hx => List.mem_cons_of_mem _ (h.2.2 x hx)⟩
    · by_cases hamt : e.amount ≤ lvl
      · have h := ih (lvl - e.amount) (by linarith) hrest
        have hea : 0 < e.amount := hq e (List.mem_cons_self _ _)
        simp only [drainGet, if_neg hst, if_pos hamt]
        exact ⟨h.1, le_trans h.2.1 (by linarith),
               fun x hx => List.mem_cons_of_mem _ (h.2.2 x hx)⟩
      · simp only [drainGet, if_neg hst, if_neg hamt]
        exact ⟨h0, le_refl _, fun x hx => hx⟩

theorem drainPut_bounds (tg : Targets) (cap : WithTop ℚ) (ca : ℚ)
    (hca : 0 < ca) (lvl : ℚ) (pq gq : List CEntry)
    (h0 : 0 ≤ lvl) (hcap : (lvl : WithTop ℚ) ≤ cap) :
    0 ≤ (drainPut tg cap ca lvl pq gq).level ∧
    ((drainPut tg cap ca lvl pq gq).level : WithTop ℚ) ≤ cap ∧
    (∀ e ∈ (drainPut tg cap ca lvl pq gq).put_q, e ∈ pq) ∧
    (∀ e ∈ (drainPut tg cap ca lvl pq gq).get_q, e ∈ gq) := by
  induction lvl, pq, gq using drainPut.induct tg cap ca with
  | case1 lvl gq =>
    rw [drainPut.eq_def]
    exact ⟨h0, hcap, fun x hx => absurd hx (List.not_mem_nil x), fun x hx => hx⟩
  | case2 lvl e rest hst =>
    rw [drainPut.eq_def]
    simp only [if_pos hst]
    exact ⟨h0, hcap, fun x hx => hx, fun x hx => absurd hx (List.not_mem_nil x)⟩
  | case3 lvl e rest hst g gr ih =>
    have h := ih h0 hcap
    rw [drainPut.eq_def]
    simp only [if_pos hst]
    exact ⟨h.1, h.2.1, h.2.2.1, fun x hx => List.mem_cons_of_mem _ (h.2.2.2 x hx)⟩
  | case4 lvl gq e rest hst hfit ih =>
    have h := ih (by linarith) hfit
    rw [drainPut.eq_def]
    simp only [if_neg hst, if_pos hfit]
    exact ⟨h.1, h.2.1, fun x hx => List.mem_cons_of_mem _ (h.2.2.1 x hx), h.2.2.2⟩
  | case5 lvl gq e rest hst hfit =>
    rw [drainPut.eq_def]
    simp only [if_neg hst, if_neg hfit]
    exact ⟨h0, hcap, fun x hx => hx, fun x hx => hx⟩

/-- An operation on one `Container`: the caller's process, the amount, and
the targets map in force at the time of the call (processes may be
redirected between operations by the external scheduler). -/
inductive COp where
  | put (tg : Targets) (proc : Nat) (amount : ℚ)
  | get (tg : Targets) (proc : Nat) (amount : ℚ)

/-- A running `Container` with the fresh-event counter and the ordered log
of all event ids succeeded so far. -/
structure CTrace where
  state : ContainerState
  nextId : Nat
  log : List Nat

/-- One operation applied to a running `Container`.  An `amount <= 0` raises
InvalidAmount before `env.event()` runs, so the event counter does not
advance and nothing is mutated; an EmptyQueue error aborts the call but the
drain's mutations up to that point remain. -/
def cStep (t : CTrace) (op : COp) : CTrace :=
  match op with
  | .put tg p a =>
    if a ≤ 0 then t
    else
      let r := Container.put tg p t.nextId a t.state
      ⟨r.state, t.nextId + 1, t.log ++ r.log⟩
  | .get tg p a =>
    if a ≤ 0 then t
    else
      let r := Container.get tg p t.nextId a t.state
      ⟨r.state, t.nextId + 1, t.log ++ r.log⟩

/-- Run a sequence of operations on a `Container` freshly constructed with
the given capacity and initial level. -/
def cRun (cap : WithTop ℚ) (ini : ℚ) (ops : List COp) : CTrace :=
  ops.foldl cStep ⟨⟨cap, ini, [], []⟩, 0, []⟩

/-- The state invariant of a running `Container`: the level is within
bounds and every queued entry carries the positive amount that was
validated when it was pushed. -/
def CInv (cap : WithTop ℚ) (s : ContainerState) : Prop :=
  0 ≤ s.level ∧ (s.level : WithTop ℚ) ≤ cap ∧
  (∀ e ∈ s.put_q, 0 < e.amount) ∧ (∀ e ∈ s.get_q, 0 < e.amount) ∧
  s.capacity = cap

theorem put_preserves_CInv (cap : WithTop ℚ) (tg : Targets) (p ev : Nat)
    (a : ℚ) (s : ContainerState) (hinv : CInv cap s) :
    CInv cap (Container.put tg p ev a s).state := by
  obtain ⟨h0, h1, hp, hg, hc⟩ := hinv
  unfold Container.put
  by_cases ha : a ≤ 0
  · rw [if_pos ha]
    exact ⟨h0, h1, hp, hg, hc⟩
  · rw [if_neg ha]
    have hapos : 0 < a := not_le.mp ha
    by_cases hfit : ((s.level + a : ℚ) : WithTop ℚ) ≤ s.capacity
    · simp only [if_pos hfit]
      have hd := drainGet_bounds tg (s.level + a) s.get_q (by linarith) hg
      refine ⟨hd.1, ?_, hp, fun e he => hg e (hd.2.2 e he), hc⟩
      calc ((drainGet tg (s.level + a) s.get_q).level : WithTop ℚ)
          ≤ ((s.level + a : ℚ) : WithTop ℚ) := WithTop.coe_le_coe.mpr hd.2.1
        _ ≤ cap := hc ▸ hfit
    · simp only [if_neg hfit]
      refine ⟨h0, h1, ?_, hg, hc⟩
      intro e he
      rcases List.mem_append.mp he with h | h
      · exact hp e h
      · rw [List.mem_singleton.mp h]
        exact hapos

theorem get_preserves_CInv (cap : WithTop ℚ) (tg : Targets) (p ev : Nat)
    (a : ℚ) (s : ContainerState) (hinv : CInv cap s) :
    CInv cap (Container.get tg p ev a s).state := by
  obtain ⟨h0, h1, hp, hg, hc⟩ := hinv
  unfold Container.get
  by_cases ha : a ≤ 0
  · rw [if_pos ha]
    exact ⟨h0, h1, hp, hg, hc⟩
  · rw [if_neg ha]
    have hapos : 0 < a := not_le.mp ha
    by_cases hlev : a ≤ s.level
    · simp only [if_pos hlev]
      have hstep : ((s.level - a : ℚ) : WithTop ℚ) ≤ s.capacity := by
        rw [hc]
        exact le_trans (WithTop.coe_le_coe.mpr (by linarith)) h1
      have hd := drainPut_bounds tg s.capacity a hapos (s.level - a)
        s.put_q s.get_q (by linarith) hstep
      split
      · exact ⟨hd.1, hc ▸ hd.2.1, fun e he => hp e (hd.2.2.1 e he),
               fun e he => hg e (hd.2.2.2 e he), hc⟩
      · exact ⟨hd.1, hc ▸ hd.2.1, fun e he => hp e (hd.2.2.1 e he),
               fun e he => hg e (hd.2.2.2 e he), hc⟩
    · simp only [if_neg hlev]
      refine ⟨h0, h1, hp, ?_, hc⟩
      intro e he
      rcases List.mem_append.mp he with h | h
      · exact hg e h
      · rw [List.mem_singleton.mp h]
        exact hapos

theorem cStep_preserves_CInv (cap : WithTop ℚ) (t : CTrace) (op : COp)
    (hinv : CInv cap t.state) : CInv cap (cStep t op).state := by
  cases op with
  | put tg p a =>
    by_cases ha : a ≤ 0
    · simpa [cStep, ha] using hinv
    · simpa [cStep, ha] using put_preserves_CInv cap tg p t.nextId a t.state hinv
  | get tg p a =>
    by_cases ha : a ≤ 0
    · simpa [cStep, ha] using hinv
    · simpa [cStep, ha] using get_preserves_CInv cap tg p t.nextId a t.state hinv

theorem cRun_CInv (cap : WithTop ℚ) (ini : ℚ) (ops : List COp)
    (h0 : 0 ≤ ini) (h1 : (ini : WithTop ℚ) ≤ cap) :
    CInv cap (cRun cap ini ops).state := by
  unfold cRun
  induction ops using List.reverseRecOn with
  | nil =>
    exact ⟨h0, h1, by simp, by simp, rfl⟩
  | append_singleton ops op ih =>
    rw [List.foldl_append, List.foldl_cons, List.foldl_nil]
    exact cStep_preserves_CInv cap _ op ih

/-- C4: on a `Container` constructed with capacity > 0 and an initial level
within [0, capacity], the level stays within [0, capacity] after every
sequence of put/get calls with positive amounts, including the resolution
loops they trigger (even when `get`'s loop aborts with EmptyQueue, the
mutations it left behind respect the bounds). -/
theorem C4_container_level_bounds (cap : WithTop ℚ) (ini : ℚ) (ops : List COp)
    (hcap : 0 < cap) (hini0 : 0 ≤ ini) (hini1 : (ini : WithTop ℚ) ≤ cap) :
    0 ≤ (cRun cap ini ops).state.level ∧
    ((cRun cap ini ops).state.level : WithTop ℚ) ≤ cap := by
  have h := cRun_CInv cap ini ops hini0 hini1
  exact ⟨h.1, h.2.1⟩

/-- Witness for C4: a concrete bounded container run through a put, a get
and another put. -/
theorem C4_container_level_bounds_witness :
    (0 : WithTop ℚ) < ((10:ℚ) : WithTop ℚ) ∧ (0 : ℚ) ≤ 0 ∧
    ((0:ℚ) : WithTop ℚ) ≤ ((10:ℚ) : WithTop ℚ) ∧
    (0 ≤ (cRun ((10:ℚ) : WithTop ℚ) 0
        [COp.put c7Targets 1 7, COp.get c7Targets 2 5, COp.put c7Targets 3 3]).state.level ∧
     ((cRun ((10:ℚ) : WithTop ℚ) 0
        [COp.put c7Targets 1 7, COp.get c7Targets 2 5, COp.put c7Targets 3 3]).state.level : WithTop ℚ) ≤
       ((10:ℚ) : WithTop ℚ)) :=
  ⟨by exact_mod_cast (by norm_num : (0:ℚ) < 10), le_refl 0,
   by exact_mod_cast (by norm_num : (0:ℚ) ≤ 10),
   C4_container_level_bounds ((10:ℚ) : WithTop ℚ) 0 _
     (by exact_mod_cast (by norm_num : (0:ℚ) < 10)) (le_refl 0)
     (by exact_mod_cast (by norm_num : (0:ℚ) ≤ 10))⟩

/-! ### Store (`simpy/resources.py`, class `Store`) -/

/-- A put-wait-queue entry of a `Store`: the tuple
`(new_event, active_process, item)`. -/
structure SPutEntry (α : Type) where
  event : Nat
  proc : Nat
  item : α
  deriving DecidableEq

/-- State of a `Store` from `resources.py`: capacity (default
`float('inf')`, modelled `WithTop ℕ` since it bounds an item count), the
item buffer `item_q`, and the two wait queues (`get_q` entries are
`(event, proc)` pairs). -/
structure StoreState (α : Type) where
  capacity : WithTop ℕ
  item_q : List α
  put_q : List (SPutEntry α)
  get_q : List (Nat × Nat)
  deriving DecidableEq

/-- The error raised by the `resources.py` `Store.__init__`. -/
inductive SInitErr where
  | invalidCapacity
  deriving Repr, DecidableEq

/-- Embedding of the `resources.py` `Store.__init__` (lines 271-288):
rejects `capacity <= 0`, starts with all queues empty. -/
def StoreR.init (α : Type) (cap : WithTop ℕ) : Except SInitErr (StoreState α) :=
  if cap ≤ 0 then .error .invalidCapacity
  else .ok ⟨cap, [], [], []⟩

/-- Embedding of the resolution loop of `Store.put` (lines 307-315): while
both `get_q` and `item_q` are non-empty, pop the head get entry; a stale
entry is discarded; otherwise pop the head item and succeed the entry's
event with it.  Returns the item buffer, the remaining get queue, and the
log of `(event, item)` successes. -/
def storeDrainGet {α : Type} (tg : Targets) :
    List α → List (Nat × Nat) → List α × List (Nat × Nat) × List (Nat × α)
  | items, [] => (items, [], [])
  | [], g :: gq => ([], g :: gq, [])
  | item :: items, (ev, proc) :: gq =>
    if tg proc ≠ some ev then
      storeDrainGet tg (item :: items) gq
    else
      let r := storeDrainGet tg items gq
      (r.1, r.2.1, (ev, item) :: r.2.2)

/-- Embedding of the resolution loop of `Store.get` (lines 333-341): while
`put_q` is non-empty and the buffer has room, pop the head put entry; a
stale entry (the source reads `proc._target` here) is discarded; otherwise
append its item to the buffer and succeed its event (no value).  Returns
the item buffer, the remaining put queue, and the succeeded event ids. -/
def storeDrainPut {α : Type} (tg : Targets) (cap : WithTop ℕ) :
    List α → List (SPutEntry α) → List α × List (SPutEntry α) × List Nat
  | items, [] => (items, [], [])
  | items, e :: pq =>
    if ¬ ((items.length : WithTop ℕ) < cap) then
      (items, e :: pq, [])
    else if tg e.proc ≠ some e.event then
      storeDrainPut tg cap items pq
    else
      let r := storeDrainPut tg cap (items ++ [e.item]) pq
      (r.1, r.2.1, e.event :: r.2.2)

/-- Result of one `Store` operation: the state, the ordered log of
successes as `(event, value)` pairs (`none` models Python's `None`), and
whether the returned event is already succeeded. -/
structure SOpResult (α : Type) where
  state : StoreState α
  log : List (Nat × Option α)
  result : Outcome

/-- Embedding of `Store.put` (lines 298-323): if the buffer is below
capacity, append the item, drain the get queue, and succeed the fresh event
with no value; otherwise enqueue `(event, proc, item)` on `put_q`. -/
def Store.put {α : Type} (tg : Targets) (proc event : Nat) (item : α)
    (s : StoreState α) : SOpResult α :=
  if (s.item_q.length : WithTop ℕ) < s.capacity then
    let r := storeDrainGet tg (s.item_q ++ [item]) s.get_q
    ⟨{ s with item_q := r.1, get_q := r.2.1 },
     (r.2.2.map fun x => (x.1, some x.2)) ++ [(event, none)], .immediate⟩
  else
    ⟨{ s with put_q := s.put_q ++ [⟨event, proc, item⟩] }, [], .queued⟩

/-- Embedding of `Store.get` (lines 325-349): if the buffer is non-empty,
pop the oldest item, drain the put queue, and succeed the fresh event with
the popped item; otherwise enqueue `(event, proc)` on `get_q`. -/
def Store.get {α : Type} (tg : Targets) (proc event : Nat)
    (s : StoreState α) : SOpResult α :=
  match s.item_q with
  | [] =>
    ⟨{ s with get_q := s.get_q ++ [(event, proc)] }, [], .queued⟩
  | item :: rest =>
    let r := storeDrainPut tg s.capacity rest s.put_q
    ⟨{ s with item_q := r.1, put_q := r.2.1 },
     (r.2.2.map fun ev => (ev, (none : Option α))) ++ [(event, some item)], .immediate⟩

/-- C9: on a `Store` with no buffered items and no waiters (any capacity
`> 0`, as construction validates), `put(x)` immediately followed by `get()`
grants both immediately and the get event's value is exactly `x`. -/
theorem C9_store_roundtrip (α : Type) (cap : WithTop ℕ) (x : α)
    (tg1 tg2 : Targets) (p1 p2 e1 e2 : Nat) (hcap : 0 < cap) :
    (Store.put tg1 p1 e1 x (⟨cap, [], [], []⟩ : StoreState α)).result = .immediate ∧
    (Store.get tg2 p2 e2 (Store.put tg1 p1 e1 x (⟨cap, [], [], []⟩ : StoreState α)).state).result
      = .immediate ∧
    (Store.get tg2 p2 e2 (Store.put tg1 p1 e1 x (⟨cap, [], [], []⟩ : StoreState α)).state).log
      = [(e2, some x)] ∧
    (Store.get tg2 p2 e2 (Store.put tg1 p1 e1 x (⟨cap, [], [], []⟩ : StoreState α)).state).state.item_q
      = [] := by
  have hput : Store.put tg1 p1 e1 x (⟨cap, [], [], []⟩ : StoreState α) =
      ⟨⟨cap, [x], [], []⟩, [(e1, none)], .immediate⟩ := by
    unfold Store.put
    rw [if_pos (by simpa using hcap)]
    simp [storeDrainGet]
  rw [hput]
  unfold Store.get
  simp [storeDrainPut]

/-- Witness for C9: capacity 1 and item 42. -/
theorem C9_store_roundtrip_witness :
    (0 : WithTop ℕ) < 1 ∧
    ((Store.put c7Targets 1 10 42 (⟨1, [], [], []⟩ : StoreState Nat)).result = .immediate ∧
     (Store.get c7Targets 2 11 (Store.put c7Targets 1 10 42 (⟨1, [], [], []⟩ : StoreState Nat)).state).result
       = .immediate ∧
     (Store.get c7Targets 2 11 (Store.put c7Targets 1 10 42 (⟨1, [], [], []⟩ : StoreState Nat)).state).log
       = [(11, some 42)] ∧
     (Store.get c7Targets 2 11 (Store.put c7Targets 1 10 42 (⟨1, [], [], []⟩ : StoreState Nat)).state).state.item_q
       = []) :=
  ⟨by norm_num, C9_store_roundtrip Nat 1 42 c7Targets c7Targets 1 2 10 11 (by norm_num)⟩

/-! ### Store and FilterStore (`simpy/resources/store.py`) -/

/-- State of the event-based `Store`/`FilterStore` of
`simpy/resources/store.py`: `_capacity` (stored unchecked; any number is
accepted) and the `items` buffer.  The put/get wait queues live in
`base.BaseResource`, which is not among the sources; only the pieces the
claims need are modelled (the FilterStore get queue below). -/
structure StorePyState (α : Type) where
  capacity : Int
  items : List α
  deriving DecidableEq

/-- Embedding of the `store.py` `Store.__init__` (lines 120-123): performs
no validation whatsoever — every capacity is accepted. -/
def StorePy.init (α : Type) (cap : Int) : Except SInitErr (StorePyState α) :=
  .ok ⟨cap, []⟩

/-- A queued `FilterStoreGet` event: its event id and its filter
predicate. -/
structure FSEntry (α : Type) where
  event : Nat
  pred : α → Bool

/-- Embedding of `FilterQueue.__bool__` (store.py lines 78-85): the get
queue counts as non-empty iff some queued event's filter matches some item
currently in the store's buffer. -/
def FilterQueue.hasActionable {α : Type} (items : List α)
    (q : List (FSEntry α)) : Bool :=
  q.any fun e => items.any e.pred

/-- Embedding of `FilterQueue.__getitem__` (store.py lines 70-76): the
key-th event among those whose filter matches at least one buffered
item. -/
def FilterQueue.getItem {α : Type} (items : List α) (q : List (FSEntry α))
    (key : Nat) : Option (FSEntry α) :=
  (q.filter fun e => items.any e.pred)[key]?

/-- Embedding of `FilterStore._do_get` (store.py lines 176-181): scan the
buffer in insertion order; the first item satisfying the event's filter is
removed (`list.remove`: first equal occurrence) and returned as the
event's value; when no item matches, nothing happens and the event stays
untriggered. -/
def FilterStore.doGet {α : Type} [DecidableEq α] (items : List α)
    (e : FSEntry α) : Option α × List α :=
  match items.find? e.pred with
  | some it => (some it, items.erase it)
  | none => (none, items)

/-- The first queue entry (in queue order) whose filter matches a buffered
item, together with the queue with that entry removed — this is
`FilterQueue.__getitem__(0)` plus the removal the resolution pass performs
after a grant. -/
def FilterStore.findActionable {α : Type} (items : List α) :
    List (FSEntry α) → Option (FSEntry α × List (FSEntry α))
  | [] => none
  | e :: rest =>
    if items.any e.pred then some (e, rest)
    else
      match FilterStore.findActionable items rest with
      | some (a, q) => some (a, e :: q)
      | none => none

theorem findActionable_length {α : Type} (items : List α)
    (q : List (FSEntry α)) (e : FSEntry α) (q2 : List (FSEntry α))
    (h : FilterStore.findActionable items q = some (e, q2)) :
    q2.length < q.length := by
  induction q generalizing e q2 with
  | nil => simp [FilterStore.findActionable] at h
  | cons a rest ih =>
    rw [FilterStore.findActionable] at h
    by_cases hm : items.any a.pred
    · rw [if_pos hm] at h
      obtain ⟨h1, h2⟩ := Prod.mk.injEq .. ▸ (Option.some.injEq .. ▸ h)
      subst h2
      simp
    · rw [if_neg hm] at h
      cases hfind : FilterStore.findActionable items rest with
      | none => rw [hfind] at h; exact absurd h (by simp)
      | some r =>
        obtain ⟨a2, q3⟩ := r
        rw [hfind] at h
        simp only [Option.some.injEq, Prod.mk.injEq] at h
        obtain ⟨h1, h2⟩ := h
        subst h2
        have := ih a2 q3 hfind
        simp only [List.length_cons]
        omega

/-- Modelled from the spec: the resolution pass `base.BaseResource` (not
among the sources) runs over the FilterStore get queue when items change.
Through `FilterQueue`'s overridden emptiness and indexing the pass
repeatedly grants the first queued entry whose filter matches some
buffered item (removing the earliest matching item via `_do_get` and the
entry from the queue) and stops when no queued filter matches any
buffered item.  Returns the buffer, the queue, and the ordered
`(event, item)` grant log. -/
def FilterStore.triggerGet {α : Type} [DecidableEq α] (items : List α)
    (q : List (FSEntry α)) : List α × List (FSEntry α) × List (Nat × α) :=
  match hfa : FilterStore.findActionable items q with
  | none => (items, q, [])
  | some (e, q2) =>
    match FilterStore.doGet items e with
    | (some it, items2) =>
      let r := FilterStore.triggerGet items2 q2
      (r.1, r.2.1, (e.event, it) :: r.2.2)
    | (none, _) => (items, q, [])
termination_by q.length
decreasing_by
  exact findActionable_length items q e q2 hfa

/-- Modelled from the spec plus `Store._do_put` (store.py lines 130-133):
a put on a `FilterStore` appends the item when the buffer is below
capacity and then runs the get-queue resolution pass; with a full buffer
the put event is queued (on the base resource's put queue, outside this
model).  The state is `(capacity, items, get queue)`. -/
def FilterStore.put {α : Type} [DecidableEq α] (cap : Int) (items : List α)
    (q : List (FSEntry α)) (item : α) :
    (List α × List (FSEntry α) × List (Nat × α)) × Outcome :=
  if (items.length : Int) < cap then
    (FilterStore.triggerGet (items ++ [item]) q, .immediate)
  else
    ((items, q, []), .queued)

/-- C6, amended: construction-time validation is partial.  `Container`
rejects `capacity <= 0` (InvalidCapacity) and `init < 0`
(InvalidInitialLevel) — but accepts an initial level above the capacity —
and the arrival-order `Store` of resources.py rejects `capacity <= 0`;
`Resource` and the event-based `Store`/`FilterStore` of store.py perform no
construction-time validation at all. -/
theorem C6_construction_validation :
    (∀ cap : Int, Resource.init cap = ⟨cap, [], []⟩) ∧
    (∀ (cap : WithTop ℚ) (ini : ℚ),
      (Container.init cap ini = .error .invalidCapacity ↔ cap ≤ 0) ∧
      (Container.init cap ini = .error .invalidInitialLevel ↔ ¬ cap ≤ 0 ∧ ini < 0) ∧
      (Container.init cap ini = .ok ⟨cap, ini, [], []⟩ ↔ ¬ cap ≤ 0 ∧ ¬ ini < 0)) ∧
    (∀ cap : WithTop ℕ,
      (StoreR.init Nat cap = .error .invalidCapacity ↔ cap ≤ 0) ∧
      (StoreR.init Nat cap = .ok ⟨cap, [], [], []⟩ ↔ ¬ cap ≤ 0)) ∧
    (∀ cap : Int, StorePy.init Nat cap = .ok ⟨cap, []⟩) := by
  refine ⟨fun _ => rfl, fun cap ini => ?_, fun cap => ?_, fun _ => rfl⟩
  · unfold Container.init
    by_cases h1 : cap ≤ 0
    · simp [h1]
    · by_cases h2 : ini < 0 <;> simp [h1, h2]
  · unfold StoreR.init
    by_cases h1 : cap ≤ 0 <;> simp [h1]

/-- Counterexample to C6 as stated: `Resource` accepts capacity 0 without
raising, the store.py `Store` accepts capacity -3, and `Container` accepts
an initial level of 10 above its capacity of 5 (no InvalidInitialLevel). -/
theorem C6_counterexample :
    Resource.init 0 = ⟨0, [], []⟩ ∧
    StorePy.init Nat (-3) = .ok ⟨-3, []⟩ ∧
    Container.init ((5:ℚ) : WithTop ℚ) 10 = .ok ⟨((5:ℚ) : WithTop ℚ), 10, [], []⟩ := by
  refine ⟨rfl, rfl, ?_⟩
  unfold Container.init
  rw [if_neg (by decide), if_neg (by norm_num)]

/-- C8: FilterStore get resolution.  (1) The get queue counts as non-empty
exactly when some queued entry's filter matches some buffered item
(`FilterQueue.__bool__`); (2) `_do_get` removes and returns the
earliest-inserted matching item; (3) a put-triggered pass may grant an
entry that is not at the front of the queue: with entry 1 (filter: even)
queued before entry 2 (filter: odd) and `put(3)`, entry 2 is granted item 3
while entry 1 stays queued. -/
theorem C8_filterstore_get_resolution :
    (∀ (items : List Nat) (q : List (FSEntry Nat)),
      FilterQueue.hasActionable items q = true ↔
        ∃ e ∈ q, ∃ it ∈ items, e.pred it = true) ∧
    (∀ (e : FSEntry Nat) (pre post : List Nat) (it : Nat),
      (∀ y ∈ pre, e.pred y = false) → e.pred it = true →
      FilterStore.doGet (pre ++ it :: post) e = (some it, pre ++ post)) ∧
    ((FilterStore.put 2 ([] : List Nat) [⟨1, fun n => n % 2 == 0⟩, ⟨2, fun n => n % 2 == 1⟩] 3).1.2.2
       = [(2, 3)] ∧
     ((FilterStore.put 2 ([] : List Nat) [⟨1, fun n => n % 2 == 0⟩, ⟨2, fun n => n % 2 == 1⟩] 3).1.2.1.map
        fun e => e.event) = [1] ∧
     (FilterStore.put 2 ([] : List Nat) [⟨1, fun n => n % 2 == 0⟩, ⟨2, fun n => n % 2 == 1⟩] 3).1.1 = []) := by
  refine ⟨?_, ?_, ?_⟩
  · intro items q
    simp [FilterQueue.hasActionable, List.any_eq_true]
  · intro e pre post it hpre hit
    unfold FilterStore.doGet
    have hfind : (pre ++ it :: post).find? e.pred = some it := by
      rw [List.find?_append]
      rw [List.find?_eq_none.mpr (fun x hx => by simp [hpre x hx])]
      simp [List.find?_cons_of_pos _ hit]
    rw [hfind]
    show (some it, (pre ++ it :: post).erase it) = (some it, pre ++ post)
    have hnotmem : it ∉ pre := fun hmem => by
      have := hpre it hmem
      rw [this] at hit
      exact absurd hit (by simp)
    rw [List.erase_append_right _ hnotmem, List.erase_cons_head]
  · refine ⟨?_, ?_, ?_⟩ <;>
      simp [FilterStore.put, FilterStore.triggerGet, FilterStore.findActionable,
            FilterStore.doGet]

/-- Witness for C8: the earliest-matching-item statement applied at the
buffer [1, 2, 4, 9] and a filter matching only 4. -/
theorem C8_filterstore_get_resolution_witness :
    ((∀ y ∈ [1, 2], (⟨5, fun n => n == 4⟩ : FSEntry Nat).pred y = false) ∧
     (⟨5, fun n => n == 4⟩ : FSEntry Nat).pred 4 = true) ∧
    FilterStore.doGet [1, 2, 4, 9] (⟨5, fun n => n == 4⟩ : FSEntry Nat) = (some 4, [1, 2, 9]) :=
  ⟨⟨by decide, by decide⟩,
   C8_filterstore_get_resolution.2.1 ⟨5, fun n => n == 4⟩ [1, 2] [9] 4 (by decide) (by decide)⟩
theorem drainGet_count (tg : Targets) (lvl : ℚ) (gq : List CEntry) (x : Nat) :
    ((drainGet tg lvl gq).get_q.map CEntry.event).count x +
      ((drainGet tg lvl gq).log).count x ≤ (gq.map CEntry.event).count x := by
  induction gq generalizing lvl with
  | nil => simp [drainGet]
  | cons e rest ih =>
    by_cases hst : tg e.proc ≠ some e.event
    · simp only [drainGet, if_pos hst, List.map_cons, List.count_cons]
      have := ih lvl
      by_cases hx : e.event = x <;> simp [hx] <;> omega
    · by_cases hamt : e.amount ≤ lvl
      · simp only [drainGet, if_neg hst, if_pos hamt, List.map_cons, List.count_cons]
        have := ih (lvl - e.amount)
        by_cases hx : e.event = x <;> simp [hx] <;> omega
      · simp only [drainGet, if_neg hst, if_neg hamt, List.map_cons, List.count_cons]
        simp

theorem drainPut_count (tg : Targets) (cap : WithTop ℚ) (ca : ℚ) (x : Nat)
    (lvl : ℚ) (pq gq : List CEntry) :
    ((drainPut tg cap ca lvl pq gq).put_q.map CEntry.event).count x +
      ((drainPut tg cap ca lvl pq gq).get_q.map CEntry.event).count x +
      ((drainPut tg cap ca lvl pq gq).log).count x ≤
    (pq.map CEntry.event).count x + (gq.map CEntry.event).count x := by
  induction lvl, pq, gq using drainPut.induct tg cap ca with
  | case1 lvl gq =>
    rw [drainPut.eq_def]
    simp
  | case2 lvl e rest hst =>
    rw [drainPut.eq_def]
    simp [if_pos hst]
  | case3 lvl e rest hst g gr ih =>
    rw [drainPut.eq_def]
    simp only [if_pos hst]
    have h2 := ih
    by_cases hx : g.event = x <;> simp [List.count_cons, hx] at h2 ⊢ <;> omega
  | case4 lvl gq e rest hst hfit ih =>
    rw [drainPut.eq_def]
    simp only [if_neg hst, if_pos hfit]
    have h2 := ih
    by_cases hx : e.event = x <;> simp [List.count_cons, hx] at h2 ⊢ <;> omega
  | case5 lvl gq e rest hst hfit =>
    rw [drainPut.eq_def]
    simp only [if_neg hst, if_neg hfit, List.count_nil]
    omega

theorem storeDrainGet_count {α : Type} (tg : Targets) (items : List α)
    (gq : List (Nat × Nat)) (x : Nat) :
    (((storeDrainGet tg items gq).2.1).map Prod.fst).count x +
      (((storeDrainGet tg items gq).2.2).map Prod.fst).count x ≤
    (gq.map Prod.fst).count x := by
  induction gq generalizing items with
  | nil =>
    cases items <;> simp [storeDrainGet]
  | cons g gq ih =>
    obtain ⟨ev, proc⟩ := g
    cases items with
    | nil => simp [storeDrainGet]
    | cons item rest =>
      by_cases hst : tg proc ≠ some ev
      · simp only [storeDrainGet, if_pos hst, List.map_cons, List.count_cons]
        have := ih (item :: rest)
        by_cases hx : ev = x <;> simp [hx] <;> omega
      · simp only [storeDrainGet, if_neg hst, List.map_cons, List.count_cons]
        have := ih rest
        by_cases hx : ev = x <;> simp [hx] <;> omega

theorem storeDrainPut_count {α : Type} (tg : Targets) (cap : WithTop ℕ)
    (items : List α) (pq : List (SPutEntry α)) (x : Nat) :
    (((storeDrainPut tg cap items pq).2.1).map SPutEntry.event).count x +
      ((storeDrainPut tg cap items pq).2.2).count x ≤
    (pq.map SPutEntry.event).count x := by
  induction pq generalizing items with
  | nil => simp [storeDrainPut]
  | cons e pq ih =>
    simp only [storeDrainPut]
    by_cases hroom : ¬ ((items.length : WithTop ℕ) < cap)
    · rw [if_pos hroom]
      simp
    · rw [if_neg hroom]
      by_cases hst : tg e.proc ≠ some e.event
      · rw [if_pos hst]
        have h2 := ih items
        by_cases hx : e.event = x <;> simp [List.count_cons, hx] at h2 ⊢ <;> omega
      · rw [if_neg hst]
        have h2 := ih (items ++ [e.item])
        by_cases hx : e.event = x <;> simp [List.count_cons, hx] at h2 ⊢ <;> omega

theorem storeDrainGet_items {α : Type} (tg : Targets) (items : List α)
    (gq : List (Nat × Nat)) :
    ((storeDrainGet tg items gq).2.2.map Prod.snd) ++ (storeDrainGet tg items gq).1 = items := by
  induction gq generalizing items with
  | nil => cases items <;> simp [storeDrainGet]
  | cons g gq ih =>
    obtain ⟨ev, proc⟩ := g
    cases items with
    | nil => simp [storeDrainGet]
    | cons item rest =>
      by_cases hst : tg proc ≠ some ev
      · simp only [storeDrainGet, if_pos hst]
        exact ih (item :: rest)
      · simp only [storeDrainGet, if_neg hst, List.map_cons, List.cons_append]
        rw [ih rest]

/-- An operation on one `Store` by some process, with the targets map in
force at the time of the call. -/
inductive SOp (α : Type) where
  | put (tg : Targets) (proc : Nat) (item : α)
  | get (tg : Targets) (proc : Nat)

/-- A running `Store` with the fresh-event counter and the ordered log of
all `(event, value)` successes so far. -/
structure STrace (α : Type) where
  state : StoreState α
  nextId : Nat
  log : List (Nat × Option α)

/-- One operation applied to a running `Store`. -/
def sStep {α : Type} (t : STrace α) (op : SOp α) : STrace α :=
  match op with
  | .put tg p it =>
    let r := Store.put tg p t.nextId it t.state
    ⟨r.state, t.nextId + 1, t.log ++ r.log⟩
  | .get tg p =>
    let r := Store.get tg p t.nextId t.state
    ⟨r.state, t.nextId + 1, t.log ++ r.log⟩

/-- Run a sequence of operations on a freshly constructed `Store`. -/
def sRun (α : Type) (cap : WithTop ℕ) (ops : List (SOp α)) : STrace α :=
  ops.foldl sStep ⟨⟨cap, [], [], []⟩, 0, []⟩

/-- All event ids a running `Resource` is responsible for: queued events
followed by already-succeeded events. -/
def rIds (t : RTrace) : List Nat :=
  t.state.queue.map Prod.fst ++ t.log

/-- All event ids a running `Container` is responsible for. -/
def cIds (t : CTrace) : List Nat :=
  t.state.put_q.map CEntry.event ++ t.state.get_q.map CEntry.event ++ t.log

/-- All event ids a running `Store` is responsible for. -/
def sIds {α : Type} (t : STrace α) : List Nat :=
  t.state.put_q.map SPutEntry.event ++ t.state.get_q.map Prod.fst ++
    t.log.map Prod.fst

/-- Freshness invariant: every event id occurs at most once among the
queued and succeeded events, and all ids are below the fresh counter. -/
def EvInv (ids : List Nat) (n : Nat) : Prop :=
  (∀ x, ids.count x ≤ 1) ∧ ∀ x ∈ ids, x < n

theorem EvInv_extend {ids ids2 : List Nat} {n : Nat} (h : EvInv ids n)
    (hcount : ∀ x, ids2.count x ≤ ids.count x + if x = n then 1 else 0) :
    EvInv ids2 (n + 1) := by
  constructor
  · intro x
    by_cases hx : x = n
    · have h0 : ids.count x = 0 := List.count_eq_zero.mpr (fun hm => by
        have := h.2 x hm
        omega)
      have := hcount x
      rw [if_pos hx] at this
      omega
    · have := hcount x
      rw [if_neg hx] at this
      have := h.1 x
      omega
  · intro x hm
    have hpos : 0 < ids2.count x := List.count_pos_iff.mpr hm
    have := hcount x
    by_cases hx : x = n
    · omega
    · rw [if_neg hx] at this
      have hmem : x ∈ ids := List.count_pos_iff.mp (by omega)
      have := h.2 x hmem
      omega

theorem EvInv_mono {ids ids2 : List Nat} {n : Nat} (h : EvInv ids n)
    (hcount : ∀ x, ids2.count x ≤ ids.count x) : EvInv ids2 n := by
  refine ⟨fun x => le_trans (hcount x) (h.1 x), fun x hm => ?_⟩
  have hpos : 0 < ids2.count x := List.count_pos_iff.mpr hm
  have := hcount x
  exact h.2 x (List.count_pos_iff.mp (by omega))
theorem resumeNext_count (s : ResourceState) (x : Nat) :
    ((Resource.resumeNext s).1.queue.map Prod.fst).count x +
      ((Resource.resumeNext s).2).count x = (s.queue.map Prod.fst).count x := by
  rcases hq : s.queue with _ | ⟨⟨ev, nu⟩, rest⟩ <;>
    simp [Resource.resumeNext, hq, List.count_cons] <;> omega

theorem release_count (p : Nat) (s s2 : ResourceState) (log2 : List Nat)
    (hrel : Resource.release p s = .ok (s2, log2)) (x : Nat) :
    (s2.queue.map Prod.fst).count x + log2.count x =
      (s.queue.map Prod.fst).count x := by
  unfold Resource.release at hrel
  by_cases hp : p ∈ s.users
  · rw [if_pos hp] at hrel
    simp only [Except.ok.injEq] at hrel
    have h := resumeNext_count { s with users := s.users.erase p } x
    rw [hrel] at h
    simpa using h
  · rw [if_neg hp, fifoRemoveProc_eq_none] at hrel
    exact absurd hrel (by simp)

theorem rStep_EvInv (t : RTrace) (op : ROp) (h : EvInv (rIds t) t.nextId) :
    EvInv (rIds (rStep t op)) (rStep t op).nextId := by
  cases op with
  | request p =>
    have hn : (rStep t (ROp.request p)).nextId = t.nextId + 1 := rfl
    rw [hn]
    apply EvInv_extend h
    intro x
    by_cases hlt : (t.state.users.length : Int) < t.state.capacity <;>
      by_cases hx : x = t.nextId <;>
      simp [rStep, Resource.request, hlt, rIds, List.count_append,
            List.count_cons, hx] <;> omega
  | release p =>
    have hstep : rStep t (.release p) = match Resource.release p t.state with
      | .ok (s2, log2) => (⟨s2, t.nextId, t.log ++ log2⟩ : RTrace)
      | .error _ => t := rfl
    rw [hstep]
    rcases hrel : Resource.release p t.state with e | ⟨s2, log2⟩
    · exact h
    · apply EvInv_mono h
      intro x
      have := release_count p t.state s2 log2 hrel x
      simp only [rIds, List.count_append]
      simp only [rIds, List.count_append] at h ⊢
      omega

theorem rRun_EvInv (cap : Int) (ops : List ROp) :
    EvInv (rIds (rRun cap ops)) (rRun cap ops).nextId := by
  unfold rRun
  induction ops using List.reverseRecOn with
  | nil =>
    constructor
    · intro x
      simp [rIds, Resource.init]
    · intro x hx
      simp [rIds, Resource.init] at hx
  | append_singleton ops op ih =>
    rw [List.foldl_append, List.foldl_cons, List.foldl_nil]
    exact rStep_EvInv _ op ih
theorem containerPut_count (tg : Targets) (p ev : Nat) (a : ℚ)
    (s : ContainerState) (x : Nat) :
    ((Container.put tg p ev a s).state.put_q.map CEntry.event).count x +
      ((Container.put tg p ev a s).state.get_q.map CEntry.event).count x +
      ((Container.put tg p ev a s).log).count x ≤
    (s.put_q.map CEntry.event).count x + (s.get_q.map CEntry.event).count x +
      (if x = ev then 1 else 0) := by
  unfold Container.put
  by_cases ha : a ≤ 0
  · rw [if_pos ha]
    simp only [List.count_nil]
    omega
  · rw [if_neg ha]
    by_cases hfit : ((s.level + a : ℚ) : WithTop ℚ) ≤ s.capacity
    · simp only [if_pos hfit]
      have hd := drainGet_count tg (s.level + a) s.get_q x
      by_cases hx : x = ev
      · subst hx
        simp only [List.count_append, List.count_cons, if_pos rfl, List.map_append,
                   List.map_cons, List.map_nil, List.count_singleton]
        simp [List.count_append]
        omega
      · simp [List.count_append, List.count_cons, hx]
        omega
    · simp only [if_neg hfit]
      by_cases hx : x = ev <;>
        simp [List.count_append, List.count_cons, hx] <;> omega

theorem containerGet_count (tg : Targets) (p ev : Nat) (a : ℚ)
    (s : ContainerState) (x : Nat) :
    ((Container.get tg p ev a s).state.put_q.map CEntry.event).count x +
      ((Container.get tg p ev a s).state.get_q.map CEntry.event).count x +
      ((Container.get tg p ev a s).log).count x ≤
    (s.put_q.map CEntry.event).count x + (s.get_q.map CEntry.event).count x +
      (if x = ev then 1 else 0) := by
  unfold Container.get
  by_cases ha : a ≤ 0
  · rw [if_pos ha]
    simp only [List.count_nil]
    omega
  · rw [if_neg ha]
    by_cases hlev : a ≤ s.level
    · simp only [if_pos hlev]
      have hd := drainPut_count tg s.capacity a x (s.level - a) s.put_q s.get_q
      split
      · by_cases hx : x = ev
        · subst hx
          simp [List.count_append]
          omega
        · simp [List.count_append, hx]
          omega
      · by_cases hx : x = ev
        · subst hx
          simp [List.count_append]
          omega
        · simp [List.count_append, hx]
          omega
    · simp only [if_neg hlev]
      by_cases hx : x = ev <;>
        simp [List.count_append, List.count_cons, hx] <;> omega

theorem cStep_EvInv (t : CTrace) (op : COp) (h : EvInv (cIds t) t.nextId) :
    EvInv (cIds (cStep t op)) (cStep t op).nextId := by
  cases op with
  | put tg p a =>
    by_cases ha : a ≤ 0
    · simpa [cStep, ha] using h
    · have hstep : cStep t (.put tg p a) =
          ⟨(Container.put tg p t.nextId a t.state).state, t.nextId + 1,
           t.log ++ (Container.put tg p t.nextId a t.state).log⟩ := by
        simp [cStep, ha]
      rw [hstep]
      apply EvInv_extend h
      intro x
      have := containerPut_count tg p t.nextId a t.state x
      simp only [cIds, List.count_append] at this ⊢
      omega
  | get tg p a =>
    by_cases ha : a ≤ 0
    · simpa [cStep, ha] using h
    · have hstep : cStep t (.get tg p a) =
          ⟨(Container.get tg p t.nextId a t.state).state, t.nextId + 1,
           t.log ++ (Container.get tg p t.nextId a t.state).log⟩ := by
        simp [cStep, ha]
      rw [hstep]
      apply EvInv_extend h
      intro x
      have := containerGet_count tg p t.nextId a t.state x
      simp only [cIds, List.count_append] at this ⊢
      omega

theorem cRun_EvInv (cap : WithTop ℚ) (ini : ℚ) (ops : List COp) :
    EvInv (cIds (cRun cap ini ops)) (cRun cap ini ops).nextId := by
  unfold cRun
  induction ops using List.reverseRecOn with
  | nil =>
    constructor
    · intro x
      simp [cIds]
    · intro x hx
      simp [cIds] at hx
  | append_singleton ops op ih =>
    rw [List.foldl_append, List.foldl_cons, List.foldl_nil]
    exact cStep_EvInv _ op ih
theorem map_fst_pair_some {α : Type} (l : List (Nat × α)) :
    (l.map fun y => (y.1, some y.2)).map Prod.fst = l.map Prod.fst := by
  induction l with
  | nil => rfl
  | cons a l ih => simp [ih]

theorem map_fst_pair_none {α : Type} (l : List Nat) :
    (l.map fun e => (e, (none : Option α))).map Prod.fst = l := by
  induction l with
  | nil => rfl
  | cons a l ih => simp [ih]

theorem storePut_count {α : Type} (tg : Targets) (p ev : Nat) (it : α)
    (s : StoreState α) (x : Nat) :
    ((Store.put tg p ev it s).state.put_q.map SPutEntry.event).count x +
      ((Store.put tg p ev it s).state.get_q.map Prod.fst).count x +
      (((Store.put tg p ev it s).log).map Prod.fst).count x ≤
    (s.put_q.map SPutEntry.event).count x + (s.get_q.map Prod.fst).count x +
      (if x = ev then 1 else 0) := by
  unfold Store.put
  by_cases hroom : (s.item_q.length : WithTop ℕ) < s.capacity
  · simp only [if_pos hroom, List.map_append, map_fst_pair_some]
    have hd := storeDrainGet_count tg (s.item_q ++ [it]) s.get_q x
    by_cases hx : x = ev
    · subst hx
      simp [List.count_append]
      omega
    · simp [List.count_append, hx]
      omega
  · simp only [if_neg hroom]
    by_cases hx : x = ev
    · subst hx
      simp [List.count_append]
      omega
    · simp [List.count_append, hx]

theorem storeGet_count {α : Type} (tg : Targets) (p ev : Nat)
    (s : StoreState α) (x : Nat) :
    ((Store.get tg p ev s).state.put_q.map SPutEntry.event).count x +
      ((Store.get tg p ev s).state.get_q.map Prod.fst).count x +
      (((Store.get tg p ev s).log).map Prod.fst).count x ≤
    (s.put_q.map SPutEntry.event).count x + (s.get_q.map Prod.fst).count x +
      (if x = ev then 1 else 0) := by
  unfold Store.get
  rcases hitems : s.item_q with _ | ⟨item, rest⟩
  · by_cases hx : x = ev
    · subst hx
      simp [List.count_append]
      omega
    · simp [List.count_append, hx]
  · simp only [List.map_append, map_fst_pair_none]
    have hd := storeDrainPut_count tg s.capacity rest s.put_q x
    by_cases hx : x = ev
    · subst hx
      simp [List.count_append]
      omega
    · simp [List.count_append, hx]
      omega

theorem sStep_EvInv {α : Type} (t : STrace α) (op : SOp α)
    (h : EvInv (sIds t) t.nextId) :
    EvInv (sIds (sStep t op)) (sStep t op).nextId := by
  cases op with
  | put tg p it =>
    have hstep : sStep t (.put tg p it) =
        ⟨(Store.put tg p t.nextId it t.state).state, t.nextId + 1,
         t.log ++ (Store.put tg p t.nextId it t.state).log⟩ := rfl
    rw [hstep]
    apply EvInv_extend h
    intro x
    have := storePut_count tg p t.nextId it t.state x
    simp only [sIds, List.count_append, List.map_append] at this ⊢
    omega
  | get tg p =>
    have hstep : sStep t (.get tg p) =
        ⟨(Store.get tg p t.nextId t.state).state, t.nextId + 1,
         t.log ++ (Store.get tg p t.nextId t.state).log⟩ := rfl
    rw [hstep]
    apply EvInv_extend h
    intro x
    have := storeGet_count tg p t.nextId t.state x
    simp only [sIds, List.count_append, List.map_append] at this ⊢
    omega

theorem sRun_EvInv {α : Type} (cap : WithTop ℕ) (ops : List (SOp α)) :
    EvInv (sIds (sRun α cap ops)) (sRun α cap ops).nextId := by
  unfold sRun
  induction ops using List.reverseRecOn with
  | nil =>
    constructor
    · intro x
      simp [sIds]
    · intro x hx
      simp [sIds] at hx
  | append_singleton ops op ih =>
    rw [List.foldl_append, List.foldl_cons, List.foldl_nil]
    exact sStep_EvInv _ op ih

/-- C3: at-most-once grant.  Over every operation sequence on any one
primitive the log of events the primitive has resolved is duplicate-free —
no event is ever succeeded (and none is ever failed; these primitives never
call fail) more than once, and since every grant pops its wait entry, no
wait entry is granted twice.  Additionally, within one Store resolution
pass the granted items and the remaining buffer partition the original
buffer: no buffered item is handed to two distinct wait entries. -/
theorem C3_at_most_once_grant :
    (∀ (cap : Int) (ops : List ROp), (rRun cap ops).log.Nodup) ∧
    (∀ (cap : WithTop ℚ) (ini : ℚ) (ops : List COp),
      (cRun cap ini ops).log.Nodup) ∧
    (∀ (α : Type) (cap : WithTop ℕ) (ops : List (SOp α)),
      ((sRun α cap ops).log.map Prod.fst).Nodup) ∧
    (∀ (α : Type) (tg : Targets) (items : List α) (gq : List (Nat × Nat)),
      ((storeDrainGet tg items gq).2.2.map Prod.snd) ++
        (storeDrainGet tg items gq).1 = items) := by
  refine ⟨?_, ?_, ?_, fun α tg items gq => storeDrainGet_items tg items gq⟩
  · intro cap ops
    have h := (rRun_EvInv cap ops).1
    rw [List.nodup_iff_count_le_one]
    intro a
    have h1 := h a
    simp only [rIds, List.count_append] at h1
    omega
  · intro cap ini ops
    have h := (cRun_EvInv cap ini ops).1
    rw [List.nodup_iff_count_le_one]
    intro a
    have h1 := h a
    simp only [cIds, List.count_append] at h1
    omega
  · intro α cap ops
    have h := (sRun_EvInv cap ops).1
    rw [List.nodup_iff_count_le_one]
    intro a
    have h1 := h a
    simp only [sIds, List.count_append] at h1
    omega
